import Mathlib

/-!
Verification development for the FinanceAssistant repository.

The embedding covers the three components the claims are about:

* `analysis_agent.py` — `AnalysisAgent.analyze_risk_exposure`: the risk
  exposure computation over per-symbol daily close series and an
  allocation table.  Close prices are rationals; the per-symbol
  historical fetch is a function `Ticker → List ℚ` (an empty list is the
  empty table the agent returns on a failed fetch), the latest-quote
  fetch is `Ticker → Option ℚ`, and the allocation table is an
  association list from symbol to portfolio weight (the code reads it
  with label lookups, `.loc[stock_list]` and `[stock_list]`).
* `retriever_agent.py` — `BaseRetriever.add_texts`,
  `FAISSRetriever.add_texts` and `FAISSRetriever.retrieve`.  The FAISS
  flat L2 index is embedded as the list of stored vectors; a search
  returns the indices of the `top_k` smallest squared L2 distances
  padded with `-1`, which is the library's documented behaviour.
* `scraping_agent.py` — `ScrapingAgent.scrape_filing` and
  `scrape_filings`.  The network, the HTML parser and the PDF text
  extractor are parameters of the embedding (an environment of
  functions), since the agent only branches on their success.

Machine floats are modelled by ℚ; float NaN propagation is outside the
embedding (the one place it matters, the undefined first percentage
change row, is modelled explicitly with `Option`).
-/

set_option maxHeartbeats 1000000

abbrev Ticker := String

/-! ## Analysis agent (src/analysis_agent.py) -/
/-- The symbols kept by the fetch loop of `analyze_risk_exposure`
(lines 92–96): every symbol whose historical table came back empty is
removed from `stock_list`. -/
def retainedOf (stockList : List Ticker) (hist : Ticker → List ℚ) : List Ticker :=
  stockList.filter (fun s => !(hist s).isEmpty)

/-- `Series.pct_change()`: the first entry is undefined (NaN, modelled
as `none`), entry `t+1` is `(x (t+1) - x t) / x t`. -/
def pctChange (xs : List ℚ) : List (Option ℚ) :=
  match xs with
  | [] => []
  | a :: t => none :: List.zipWith (fun p c => some ((c - p) / p)) (a :: t) t

/-- The defined part of the day-over-day percentage changes of a series. -/
def dayOverDay (xs : List ℚ) : List ℚ :=
  List.zipWith (fun p c => (c - p) / p) xs xs.tail

/-- Row-major view of a column-major table, as a `DataFrame` built from
equally indexed columns: row `i` collects entry `i` of every column. -/
def tableRowsFn (cols : List (List (Option ℚ))) : List (List (Option ℚ)) :=
  (List.range (match cols with | [] => 0 | c :: _ => c.length)).map
    (fun i => cols.map (fun c => c.getD i none))

/-- The returns table of `analyze_risk_exposure` line 102:
`data.pct_change().dropna()` — per-symbol percentage changes with every
row containing an undefined entry dropped. -/
def codeReturnsRows (retained : List Ticker) (hist : Ticker → List ℚ) : List (List ℚ) :=
  (tableRowsFn (retained.map (fun s => pctChange (hist s)))).filterMap
    (fun r => r.mapM id)

/-- Arithmetic mean of a list of rationals. -/
def listMean (xs : List ℚ) : ℚ := xs.sum / xs.length

/-- Sample covariance (denominator `n - 1`, pandas' default `ddof = 1`). -/
def listCov (xs ys : List ℚ) : ℚ :=
  (List.zipWith (fun a b => (a - listMean xs) * (b - listMean ys)) xs ys).sum /
    ((xs.length : ℚ) - 1)

/-- Pearson correlation of two columns, as computed by
`DataFrame.corr()`: covariance over the product of the standard
deviations. -/
noncomputable def corrR (xs ys : List ℚ) : ℝ :=
  ((listCov xs ys : ℚ) : ℝ) /
    (Real.sqrt ((listCov xs xs : ℚ) : ℝ) * Real.sqrt ((listCov ys ys : ℚ) : ℝ))

/-- `Series.std()`: square root of the sample variance (`ddof = 1`). -/
noncomputable def pstd (xs : List ℚ) : ℝ := Real.sqrt ((listCov xs xs : ℚ) : ℝ)

/-- `returns.corr()` of line 103, keyed the way `to_dict()` keys it:
for each pair of retained symbols, the Pearson correlation of their
returns columns. -/
noncomputable def corrMatrixFn (retained : List Ticker) (hist : Ticker → List ℚ) :
    List (Ticker × List (Ticker × ℝ)) :=
  let rows := codeReturnsRows retained hist
  let pairs := List.zip retained
    ((List.range retained.length).map (fun j => rows.map (fun r => r.getD j 0)))
  pairs.map (fun p => (p.1, pairs.map (fun q => (q.1, corrR p.2 q.2))))

/-- Label lookup in the allocation table (`allocation_data.loc[s]` on a
symbol-indexed weight table). -/
def lookupW (alloc : List (Ticker × ℚ)) (s : Ticker) : Option ℚ :=
  (alloc.find? (fun p => p.1 == s)).map Prod.snd

/-- The weight of a symbol in the allocation table (0 if absent; the
absent case is unreachable in the paths the claims quantify over,
because the earlier `.loc[stock_list]` lookup has already succeeded). -/
def weightOf (alloc : List (Ticker × ℚ)) (s : Ticker) : ℚ :=
  (lookupW alloc s).getD 0

/-- `allocation_data.sum().sum()` — the sum of every weight in the
table. -/
def totalWeight (alloc : List (Ticker × ℚ)) : ℚ := (alloc.map Prod.snd).sum

/-- Line 105: the weighted daily return sums —
`(returns * allocation_data.loc[stock_list].values).sum(axis=1)`,
one entry per kept row of the returns table. -/
def portfolioReturnsFn (retained : List Ticker) (hist : Ticker → List ℚ)
    (ws : List ℚ) : List ℚ :=
  (codeReturnsRows retained hist).map (fun row => (List.zipWith (· * ·) row ws).sum)

/-- The number of rows of the close-price table (the length of the
first retained symbol's series; under the aligned-data hypotheses every
retained series has this length). -/
def histLenOf (retained : List Ticker) (hist : Ticker → List ℚ) : ℕ :=
  match retained with
  | [] => 0
  | s :: _ => (hist s).length

/-- Line 116: `data.iloc[-1][s]` — the last row of the close table. -/
def prevCloseOf (retained : List Ticker) (hist : Ticker → List ℚ) (s : Ticker) :
    Option ℚ :=
  (hist s)[histLenOf retained hist - 1]?

/-- Lines 118–123: the per-symbol price change series — latest quoted
price minus last historical close when both exist, NaN (`none`)
otherwise. -/
def priceChangeOf (retained : List Ticker) (hist : Ticker → List ℚ)
    (quote : Ticker → Option ℚ) : List (Ticker × Option ℚ) :=
  retained.map (fun s =>
    (s, match quote s, prevCloseOf retained hist s with
        | some lp, some pp => some (lp - pp)
        | _, _ => none))

/-- `price_change.abs().idxmax()` together with the subsequent value
lookup: the first label attaining the maximal absolute value among the
defined entries, paired with its signed value, or `none` when every
entry is NaN (in which case pandas raises and the routine's blanket
handler returns `{}`). -/
def idxmaxAbs : List (Ticker × Option ℚ) → Option (Ticker × ℚ)
  | [] => none
  | (_, none) :: rest => idxmaxAbs rest
  | (s, some v) :: rest =>
    match idxmaxAbs rest with
    | none => some (s, v)
    | some (t, w) => if |v| < |w| then some (t, w) else some (s, v)

/-- Lines 127–129: allocation percentage — weight sum of the retained
symbols over the total table weight, times 100. -/
def allocPctFn (alloc : List (Ticker × ℚ)) (retained : List Ticker) : ℚ :=
  ((retained.map (fun s => weightOf alloc s)).sum / totalWeight alloc) * 100

/-- `allocation_data.shift(1)`: every weight moves down one row and the
first row becomes NaN. -/
def shiftedAlloc (alloc : List (Ticker × ℚ)) : List (Ticker × Option ℚ) :=
  List.zip (alloc.map Prod.fst) (none :: alloc.map (fun p => some p.2))

/-- Lines 131–132: previous-day allocation percentage (NaN-skipping
sums over the shifted table); no claim constrains this value. -/
def prevPctFn (alloc : List (Ticker × ℚ)) (retained : List Ticker) : ℚ :=
  if alloc.isEmpty then allocPctFn alloc retained
  else
    ((retained.map (fun s =>
        ((((shiftedAlloc alloc).find? (fun p => p.1 == s)).map Prod.snd).getD none).getD 0)).sum /
      totalWeight alloc) * 100

/-- The dictionary assembled at lines 134–141. -/
structure RiskRecord where
  correlation_matrix : List (Ticker × List (Ticker × ℝ))
  portfolio_risk : ℝ
  largest_change_stock : Ticker
  largest_change_value : ℚ
  allocation_percentage : ℚ
  previous_day_allocation_percentage : ℚ

/-- The three observable outcomes of `analyze_risk_exposure`: the
explicit error dictionary of line 99, the empty dictionary `{}` the
blanket `except` of line 145 returns, and a full analysis record. -/
inductive AnalysisOutcome where
  | error (msg : String)
  | failed
  | ok (r : RiskRecord)

/-- Shallow embedding of `AnalysisAgent.analyze_risk_exposure`
(lines 89–145).  The two in-scope exception sources are the allocation
label lookup of line 105 (a missing symbol raises `KeyError`) and
`idxmax` on an all-NaN series at line 124 (raises `ValueError`); both
are converted to `{}` by the blanket handler. -/
noncomputable def analyzeRiskExposure (stockList : List Ticker) (hist : Ticker → List ℚ)
    (quote : Ticker → Option ℚ) (alloc : List (Ticker × ℚ)) : AnalysisOutcome :=
  let retained := retainedOf stockList hist
  if retained = [] then
    AnalysisOutcome.error "No data available for any of the provided stocks."
  else
    match retained.mapM (lookupW alloc) with
    | none => AnalysisOutcome.failed
    | some ws =>
      match idxmaxAbs (priceChangeOf retained hist quote) with
      | none => AnalysisOutcome.failed
      | some lc =>
        AnalysisOutcome.ok
          { correlation_matrix := corrMatrixFn retained hist
            portfolio_risk := pstd (portfolioReturnsFn retained hist ws)
            largest_change_stock := lc.1
            largest_change_value := lc.2
            allocation_percentage := allocPctFn alloc retained
            previous_day_allocation_percentage := prevPctFn alloc retained }

/-- Projection: the correlation matrix of a successful analysis. -/
def corrOf : AnalysisOutcome → Option (List (Ticker × List (Ticker × ℝ)))
  | AnalysisOutcome.ok r => some r.correlation_matrix
  | _ => none

/-- Projection: the portfolio risk of a successful analysis. -/
def riskOf : AnalysisOutcome → Option ℝ
  | AnalysisOutcome.ok r => some r.portfolio_risk
  | _ => none

/-- Projection: largest-change stock and value of a successful analysis. -/
def largestOf : AnalysisOutcome → Option (Ticker × ℚ)
  | AnalysisOutcome.ok r => some (r.largest_change_stock, r.largest_change_value)
  | _ => none

/-- Projection: the allocation percentage of a successful analysis. -/
def allocPctOf : AnalysisOutcome → Option ℚ
  | AnalysisOutcome.ok r => some r.allocation_percentage
  | _ => none

/-! ### Spec-side definitions (written from the specification's words,
to be compared with the code-side definitions above) -/
/-- Modelled from the spec: the table of day-over-day percentage
changes of the closes with exactly the first, undefined row removed —
row `t` holds, for each retained symbol, day `t+1`'s percentage change. -/
def specReturnsTable (retained : List Ticker) (hist : Ticker → List ℚ) :
    List (List ℚ) :=
  (List.range (histLenOf retained hist - 1)).map
    (fun t => retained.map (fun s => (dayOverDay (hist s)).getD t 0))

/-- Modelled from the spec: each symbol's daily percentage return times
its portfolio weight, summed across symbols for each day. -/
def specWeightedSeries (retained : List Ticker) (hist : Ticker → List ℚ)
    (alloc : List (Ticker × ℚ)) : List ℚ :=
  (List.range (histLenOf retained hist - 1)).map
    (fun t => (retained.map
      (fun s => (dayOverDay (hist s)).getD t 0 * weightOf alloc s)).sum)

/-- Modelled from the spec: the weight sum of the symbol subset divided
by the weight sum of the full allocation table, scaled to 100. -/
def specAllocationPct (alloc : List (Ticker × ℚ)) (syms : List Ticker) : ℚ :=
  ((syms.map (fun s => weightOf alloc s)).sum / (alloc.map Prod.snd).sum) * 100

/-- A list of rationals taking at least two distinct values. -/
def NonconstantL (xs : List ℚ) : Prop := ∃ a ∈ xs, ∃ b ∈ xs, a ≠ b

/-- Concrete inputs used by the witnesses: two symbols with two aligned
trading days each, one quoted price, and a three-symbol allocation
table. -/
def wHist : Ticker → List ℚ := fun s =>
  if s = "A" then [1, 2] else if s = "B" then [4, 6] else []

def wQuote : Ticker → Option ℚ := fun s => if s = "A" then some 3 else none

def wAlloc : List (Ticker × ℚ) := [("A", 1), ("B", 2), ("C", 3)]

/-- Modelled from the spec: the latest quoted price minus the last
available historical close, when both exist. -/
def specChange (hist : Ticker → List ℚ) (quote : Ticker → Option ℚ) (s : Ticker) :
    Option ℚ :=
  match quote s, (hist s).getLast? with
  | some q, some c => some (q - c)
  | _, _ => none

/-- Reading an entry of the nested correlation dictionary
(`correlation_matrix[a][b]` after `to_dict()`), with 0 for a missing
key (no claim touches missing keys). -/
def corrLookup (M : List (Ticker × List (Ticker × ℝ))) (a b : Ticker) : ℝ :=
  (((((M.find? (fun p => p.1 == a)).map Prod.snd).getD []).find?
      (fun p => p.1 == b)).map Prod.snd).getD 0

/-- Counterexample inputs for C4: one symbol with the non-constant
close series 1, 2, 4 whose day-over-day returns are constant. -/
def ceHist : Ticker → List ℚ := fun s => if s = "A" then [1, 2, 4] else []

def ceQuote : Ticker → Option ℚ := fun s => if s = "A" then some 2 else none

/-! ## Retriever agent (src/retriever_agent.py) -/
/-- Metadata dictionaries attached to stored texts (their contents are
irrelevant to the claims). -/
abbrev MetaD := List (String × String)

/-- The numpy dtype tag of an embedding matrix; the FAISS store accepts
only float32. -/
inductive DType where
  | float32
  | float64
  deriving DecidableEq

/-- A numpy embedding matrix: its dtype tag and its rows. -/
structure Embs where
  dtype : DType
  rows : List (List ℚ)
  deriving DecidableEq

/-- The in-memory store of `BaseRetriever`. -/
structure BaseState where
  texts : List String
  embeddings : List (List ℚ)
  metadata : List MetaD
  deriving DecidableEq

/-- `BaseRetriever.add_texts` (lines 33–41).  Both length checks come
before the `extend` calls, so a raise returns the state unmodified; the
result pairs the state at return time with the raised message, if any.
A `metadata` argument that is `None` or the empty list is falsy in
Python, so the length check is skipped and empty dictionaries are
appended instead. -/
def baseAddTexts (st : BaseState) (texts : List String) (embs : Embs)
    (metadata : Option (List MetaD)) : BaseState × Option String :=
  if texts.length ≠ embs.rows.length then
    (st, some "Number of texts does not match number of embeddings")
  else if (metadata.getD []) ≠ [] ∧ (metadata.getD []).length ≠ texts.length then
    (st, some "Length of metadata list must match the number of texts.")
  else
    ({ texts := st.texts ++ texts
       embeddings := st.embeddings ++ embs.rows
       metadata := st.metadata ++
         (if (metadata.getD []).isEmpty then texts.map (fun _ => ([] : MetaD))
          else metadata.getD []) }, none)

/-- The state of `FAISSRetriever`: the base lists plus the vectors held
by the flat L2 index. -/
structure FAISSState where
  base : BaseState
  indexVecs : List (List ℚ)
  embedding_dim : ℕ
  deriving DecidableEq

/-- `FAISSRetriever.add_texts` (lines 67–71): the dtype check precedes
the superclass call; on success the embeddings are also added to the
index. -/
def faissAddTexts (st : FAISSState) (texts : List String) (embs : Embs)
    (metadata : Option (List MetaD)) : FAISSState × Option String :=
  if embs.dtype ≠ DType.float32 then
    (st, some "FAISS requires embeddings of dtype np.float32.")
  else
    match baseAddTexts st.base texts embs metadata with
    | (b, some e) => ({ st with base := b }, some e)
    | (b, none) =>
      ({ st with base := b, indexVecs := st.indexVecs ++ embs.rows }, none)

/-- An example FAISS store with two one-dimensional vectors, used by
the retriever witnesses. -/
def wFaiss : FAISSState :=
  { base := { texts := ["t1", "t2"], embeddings := [[1], [2]], metadata := [[], []] }
    indexVecs := [[1], [2]]
    embedding_dim := 1 }

/-- A query vector with its dtype tag. -/
structure QVec where
  dtype : DType
  vec : List ℚ

/-- Squared L2 distance between two vectors. -/
def l2sq (x y : List ℚ) : ℚ := (List.zipWith (fun a b => (a - b) * (a - b)) x y).sum

/-- Squared distance of stored vector `i` to the query. -/
def distTo (st : FAISSState) (q : List ℚ) (i : ℕ) : ℚ :=
  l2sq (st.indexVecs.getD i []) q

/-- The order the index search reports results in: by distance, ties by
index. -/
def distLe (d : ℕ → ℚ) (i j : ℕ) : Prop := d i < d j ∨ (d i = d j ∧ i ≤ j)

instance (d : ℕ → ℚ) : DecidableRel (distLe d) := fun i j => by
  unfold distLe
  infer_instance

instance (d : ℕ → ℚ) : IsTotal ℕ (distLe d) := ⟨by
  intro i j
  rcases lt_trichotomy (d i) (d j) with h | h | h
  · exact Or.inl (Or.inl h)
  · rcases le_total i j with hij | hij
    · exact Or.inl (Or.inr ⟨h, hij⟩)
    · exact Or.inr (Or.inr ⟨h.symm, hij⟩)
  · exact Or.inr (Or.inl h)⟩

instance (d : ℕ → ℚ) : IsTrans ℕ (distLe d) := ⟨by
  intro a b c hab hbc
  rcases hab with hab | ⟨hab1, hab2⟩
  · rcases hbc with hbc | ⟨hbc1, hbc2⟩
    · exact Or.inl (lt_trans hab hbc)
    · exact Or.inl (hbc1 ▸ hab)
  · rcases hbc with hbc | ⟨hbc1, hbc2⟩
    · exact Or.inl (hab1 ▸ hbc)
    · exact Or.inr ⟨hab1.trans hbc1, le_trans hab2 hbc2⟩⟩

/-- The stored indices sorted the way the flat L2 index search reports
them (FAISS returns results ordered by increasing distance). -/
def sortedOrder (st : FAISSState) (q : List ℚ) : List ℕ :=
  List.insertionSort (distLe (distTo st q)) (List.range st.indexVecs.length)

/-- The indices returned before padding: the `top_k` nearest. -/
def selectedIdx (st : FAISSState) (q : List ℚ) (k : ℕ) : List ℕ :=
  (sortedOrder st q).take k

/-- `faiss.IndexFlatL2.search`: indices of the `k` smallest distances,
padded with `-1` up to length `k` when fewer vectors are stored. -/
def searchIdx (st : FAISSState) (q : List ℚ) (k : ℕ) : List ℤ :=
  (selectedIdx st q k).map (fun i => Int.ofNat i) ++
    List.replicate (k - st.indexVecs.length) (-1)

/-- A stored entry as `retrieve` returns it (lines 82–86). -/
structure Entry where
  text : String
  embedding : List ℚ
  metadata : MetaD
  deriving DecidableEq

/-- The stored triple at index `i`. -/
def entryAt (st : FAISSState) (i : ℕ) : Entry :=
  { text := st.base.texts.getD i ""
    embedding := st.base.embeddings.getD i []
    metadata := st.base.metadata.getD i [] }

/-- All stored entries, in insertion order. -/
def allEntries (st : FAISSState) : List Entry :=
  (List.range st.indexVecs.length).map (entryAt st)

/-- `FAISSRetriever.retrieve` (lines 73–87): explicit errors for an
empty index and a non-float32 query, otherwise the entries at the
searched indices with the `-1` padding filtered out. -/
def faissRetrieve (st : FAISSState) (q : QVec) (top_k : ℕ) :
    Except String (List Entry) :=
  if st.indexVecs.length = 0 then
    Except.error "The FAISS index is empty. Add some texts before querying."
  else if q.dtype ≠ DType.float32 then
    Except.error "Query embedding must be of dtype np.float32."
  else
    Except.ok ((searchIdx st q.vec top_k).filterMap
      (fun i => if i = -1 then none else some (entryAt st i.toNat)))

/-! ## Scraping agent (src/scraping_agent.py) -/
/-- The record `scrape_filing` extracts: title and paragraph content
for HTML documents, a stripped text blob for PDFs. -/
inductive ScrapeData where
  | htmlData (title content : String)
  | textData (txt : String)
  deriving DecidableEq

/-- The external effects the scraping agent delegates to: the HTTP
fetch (`_fetch_document`, `None` on any request failure), the HTML
parse (`_parse_html`, `None` on a parser exception), the HTML
extraction (`_extract_data_from_html`, total — it converts its own
failures to an error record), and the PDF text extraction
(`_extract_text_from_pdf`, `None` when both extractors fail). -/
structure ScrapeEnv where
  fetch : String → Option (List ℕ)
  parseHtml : List ℕ → Option String
  extractHtml : String → ScrapeData
  extractPdf : List ℕ → Option String

/-- Line 83: `url.lower().endswith(".html") or url.lower().endswith(".htm")`. -/
def isHtmlUrl (url : String) : Bool :=
  url.toLower.endsWith ".html" || url.toLower.endsWith ".htm"

/-- Line 88: `url.lower().endswith(".pdf")`. -/
def isPdfUrl (url : String) : Bool := url.toLower.endsWith ".pdf"

/-- `ScrapingAgent.scrape_filing` (lines 78–95). -/
def scrape_filing (env : ScrapeEnv) (url : String) : Option ScrapeData :=
  match env.fetch url with
  | none => none
  | some content =>
    if isHtmlUrl url then
      match env.parseHtml content with
      | none => none
      | some soup => some (env.extractHtml soup)
    else if isPdfUrl url then
      match env.extractPdf content with
      | none => none
      | some txt => some (ScrapeData.textData txt.trim)
    else none

/-- `ScrapingAgent.scrape_filings` (lines 97–98): one independent
`scrape_filing` call per URL. -/
def scrape_filings (env : ScrapeEnv) (urls : List String) : List (Option ScrapeData) :=
  urls.map (scrape_filing env)

/-- Example environment for the scraping witness: one URL fails to
fetch, PDF extraction always fails, HTML always parses. -/
def wEnv : ScrapeEnv :=
  { fetch := fun url => if url = "bad.pdf" then none else some [1]
    parseHtml := fun _ => some "soup"
    extractHtml := fun s => ScrapeData.htmlData "T" s
    extractPdf := fun _ => none }

/-! ## Theorems -/

/-! ### Basic lemmas about the analysis embedding -/
theorem retainedOf_eq_nil (stockList : List Ticker) (hist : Ticker → List ℚ)
    (h : ∀ s ∈ stockList, hist s = []) : retainedOf stockList hist = [] := by
  simp only [retainedOf, List.filter_eq_nil_iff]
  intro s hs
  simp [h s hs]

/-- C1: if the historical fetch yields an empty table for every symbol,
`analyze_risk_exposure` returns the explicit error record
`{"error": "No data available for any of the provided stocks."}`
instead of raising or proceeding. -/
theorem C1_all_dropped_yields_error (stockList : List Ticker)
    (hist : Ticker → List ℚ) (quote : Ticker → Option ℚ)
    (alloc : List (Ticker × ℚ)) (h : ∀ s ∈ stockList, hist s = []) :
    analyzeRiskExposure stockList hist quote alloc =
      AnalysisOutcome.error "No data available for any of the provided stocks." := by
  have hr := retainedOf_eq_nil stockList hist h
  simp [analyzeRiskExposure, hr]

theorem C1_witness :
    (∀ s ∈ ["AAPL", "TSMC"], (fun _ : Ticker => ([] : List ℚ)) s = []) ∧
    analyzeRiskExposure ["AAPL", "TSMC"] (fun _ => []) (fun _ => none)
        [("AAPL", (1 : ℚ) / 10)] =
      AnalysisOutcome.error "No data available for any of the provided stocks." :=
  ⟨by intro s _; rfl,
   C1_all_dropped_yields_error _ _ _ _ (by intro s _; rfl)⟩

theorem pctChange_cons (a : ℚ) (t : List ℚ) :
    pctChange (a :: t) = none :: (dayOverDay (a :: t)).map some := by
  simp [pctChange, dayOverDay, List.map_zipWith]

theorem length_pctChange (xs : List ℚ) : (pctChange xs).length = xs.length := by
  cases xs with
  | nil => rfl
  | cons a t =>
    simp only [pctChange, List.length_cons, List.length_zipWith]
    omega

theorem length_dayOverDay (xs : List ℚ) : (dayOverDay xs).length = xs.length - 1 := by
  cases xs with
  | nil => rfl
  | cons a t =>
    simp only [dayOverDay, List.length_zipWith, List.tail_cons, List.length_cons]
    omega

theorem mapM_id_map_some {α : Type} (l : List α) :
    (l.map some).mapM (id : Option α → Option α) = some l := by
  induction l with
  | nil => rfl
  | cons a t ih =>
    rw [List.map_cons, List.mapM_cons, ih]
    rfl

theorem filterMap_eq_map_of_mem {α β : Type} {f : α → Option β} {g : α → β} :
    ∀ {l : List α}, (∀ a ∈ l, f a = some (g a)) → l.filterMap f = l.map g := by
  intro l
  induction l with
  | nil => intro _; rfl
  | cons a t ih =>
    intro h
    rw [List.filterMap_cons, h a (by simp), List.map_cons,
      ih (fun x hx => h x (by simp [hx]))]

theorem getD_map_some {α : Type} (l : List α) (t : ℕ) (d : α) (ht : t < l.length) :
    (l.map some).getD t none = some (l.getD t d) := by
  rw [List.getD_eq_getElem?_getD, List.getElem?_map, List.getD_eq_getElem?_getD,
    List.getElem?_eq_getElem ht]
  rfl

theorem pctChange_getD_succ (xs : List ℚ) (t : ℕ) (hx : xs ≠ [])
    (ht : t < xs.length - 1) :
    (pctChange xs).getD (t + 1) none = some ((dayOverDay xs).getD t 0) := by
  obtain ⟨c, v, rfl⟩ := List.exists_cons_of_ne_nil hx
  rw [pctChange_cons, List.getD_cons_succ]
  exact getD_map_some _ _ _ (by rw [length_dayOverDay]; exact ht)

theorem filterMap_cons_of_none {α β : Type} {f : α → Option β} {a : α}
    {l : List α} (h : f a = none) :
    List.filterMap f (a :: l) = List.filterMap f l := by
  simp [List.filterMap_cons, h]

/-- The kept rows of `data.pct_change().dropna()`: when every retained
series has `m` days, exactly the first row is dropped and row `t` holds
day `t+1`'s percentage change of every retained symbol. -/
theorem codeReturnsRows_eq (retained : List Ticker) (hist : Ticker → List ℚ) (m : ℕ)
    (hne : retained ≠ []) (hm : ∀ s ∈ retained, (hist s).length = m) :
    codeReturnsRows retained hist =
      (List.range (m - 1)).map
        (fun t => retained.map (fun s => (dayOverDay (hist s)).getD t 0)) := by
  obtain ⟨s₀, rest, rfl⟩ := List.exists_cons_of_ne_nil hne
  have hlen0 : (pctChange (hist s₀)).length = m := by
    rw [length_pctChange, hm s₀ (by simp)]
  unfold codeReturnsRows tableRowsFn
  simp only [List.map_cons]
  rw [hlen0]
  cases m with
  | zero => rfl
  | succ k =>
    obtain ⟨b, u, hbu⟩ : ∃ b u, hist s₀ = b :: u := by
      have := hm s₀ (by simp)
      cases hcase : hist s₀ with
      | nil => rw [hcase] at this; simp at this
      | cons b u => exact ⟨b, u, rfl⟩
    rw [List.range_succ_eq_map, List.map_cons]
    rw [filterMap_cons_of_none (by rw [hbu, pctChange_cons]; rfl)]
    rw [List.filterMap_map, List.filterMap_map, Nat.add_sub_cancel]
    apply filterMap_eq_map_of_mem
    intro t htmem
    have htk : t < k := List.mem_range.mp htmem
    have hentry : ∀ s ∈ s₀ :: rest,
        (pctChange (hist s)).getD (t + 1) none =
          some ((dayOverDay (hist s)).getD t 0) := by
      intro s hs
      apply pctChange_getD_succ
      · have := hm s hs
        intro hnil
        rw [hnil] at this
        simp at this
      · rw [hm s hs]
        omega
    have hrow : (pctChange (hist s₀)).getD (Nat.succ t) none ::
        List.map (fun c => c.getD (Nat.succ t) none)
          (List.map (fun s => pctChange (hist s)) rest) =
        ((dayOverDay (hist s₀)).getD t 0 ::
          List.map (fun s => (dayOverDay (hist s)).getD t 0) rest).map some := by
      rw [List.map_cons, List.map_map, List.map_map]
      congr 1
      · exact hentry s₀ (by simp)
      · apply List.map_congr_left
        intro s hs
        exact hentry s (by simp [hs])
    simp only [Function.comp_apply]
    rw [hrow, mapM_id_map_some]

theorem histLenOf_eq (retained : List Ticker) (hist : Ticker → List ℚ) (m : ℕ)
    (hne : retained ≠ []) (hm : ∀ s ∈ retained, (hist s).length = m) :
    histLenOf retained hist = m := by
  obtain ⟨s₀, rest, rfl⟩ := List.exists_cons_of_ne_nil hne
  simpa [histLenOf] using hm s₀ (by simp)

/-- C5: with aligned per-symbol close series, the returns table the
routine uses is the day-over-day percentage-change table with exactly
the first (undefined) row removed and no other row removed. -/
theorem C5_returns_table_drops_first_row (stockList : List Ticker)
    (hist : Ticker → List ℚ) (m : ℕ)
    (hne : retainedOf stockList hist ≠ [])
    (hm : ∀ s ∈ retainedOf stockList hist, (hist s).length = m) :
    codeReturnsRows (retainedOf stockList hist) hist =
      specReturnsTable (retainedOf stockList hist) hist ∧
    (codeReturnsRows (retainedOf stockList hist) hist).length = m - 1 := by
  have h1 := codeReturnsRows_eq (retainedOf stockList hist) hist m hne hm
  have h2 := histLenOf_eq (retainedOf stockList hist) hist m hne hm
  constructor
  · rw [h1, specReturnsTable, h2]
  · rw [h1, List.length_map, List.length_range]

theorem mapM_lookup_eq (alloc : List (Ticker × ℚ)) (l : List Ticker)
    (h : ∀ s ∈ l, (lookupW alloc s).isSome) :
    l.mapM (lookupW alloc) = some (l.map (fun s => weightOf alloc s)) := by
  induction l with
  | nil => rfl
  | cons a t ih =>
    obtain ⟨v, hv⟩ := Option.isSome_iff_exists.mp (h a (by simp))
    rw [List.mapM_cons, hv, ih (fun s hs => h s (by simp [hs]))]
    simp [weightOf, hv]

theorem idxmaxAbs_isSome {l : List (Ticker × Option ℚ)} {s : Ticker} {v : ℚ}
    (h : (s, some v) ∈ l) : ∃ t w, idxmaxAbs l = some (t, w) := by
  induction l with
  | nil => simp at h
  | cons p rest ih =>
    match p with
    | (a, none) =>
      rcases List.mem_cons.mp h with heq | hmem
      · exact absurd heq (by simp)
      · simpa only [idxmaxAbs] using ih hmem
    | (a, x) =>
      match x with
      | none =>
        rcases List.mem_cons.mp h with heq | hmem
        · exact absurd heq (by simp)
        · simpa only [idxmaxAbs] using ih hmem
      | some y =>
        simp only [idxmaxAbs]
        cases hr : idxmaxAbs rest with
        | none => exact ⟨a, y, rfl⟩
        | some tw =>
          obtain ⟨t, w⟩ := tw
          by_cases hc : |y| < |w|
          · exact ⟨t, w, by simp [hc]⟩
          · exact ⟨a, y, by simp [hc]⟩

theorem idxmaxAbs_none : ∀ {l : List (Ticker × Option ℚ)}, idxmaxAbs l = none →
    ∀ p ∈ l, p.2 = none := by
  intro l
  induction l with
  | nil => intro _ p hp; simp at hp
  | cons q rest ih =>
    intro h p hp
    match q with
    | (a, none) =>
      simp only [idxmaxAbs] at h
      rcases List.mem_cons.mp hp with heq | hmem
      · rw [heq]
      · exact ih h p hmem
    | (a, some y) =>
      exfalso
      simp only [idxmaxAbs] at h
      cases hr : idxmaxAbs rest with
      | none => rw [hr] at h; simp at h
      | some tw =>
        obtain ⟨t, w⟩ := tw
        rw [hr] at h
        by_cases hc : |y| < |w| <;> simp [hc] at h

theorem idxmaxAbs_mem : ∀ {l : List (Ticker × Option ℚ)} {t : Ticker} {w : ℚ},
    idxmaxAbs l = some (t, w) → (t, some w) ∈ l := by
  intro l
  induction l with
  | nil => intro t w h; simp [idxmaxAbs] at h
  | cons q rest ih =>
    intro t w h
    match q with
    | (a, none) =>
      simp only [idxmaxAbs] at h
      exact List.mem_cons_of_mem _ (ih h)
    | (a, some y) =>
      simp only [idxmaxAbs] at h
      cases hr : idxmaxAbs rest with
      | none =>
        rw [hr] at h
        simp at h
        rw [← h.1, ← h.2]
        exact List.mem_cons_self _ _
      | some tw =>
        obtain ⟨t2, w2⟩ := tw
        rw [hr] at h
        by_cases hc : |y| < |w2|
        · simp [hc] at h
          rw [← h.1, ← h.2]
          exact List.mem_cons_of_mem _ (ih hr)
        · simp [hc] at h
          rw [← h.1, ← h.2]
          exact List.mem_cons_self _ _

theorem idxmaxAbs_le : ∀ {l : List (Ticker × Option ℚ)} {t : Ticker} {w : ℚ},
    idxmaxAbs l = some (t, w) → ∀ p ∈ l, ∀ x : ℚ, p.2 = some x → |x| ≤ |w| := by
  intro l
  induction l with
  | nil => intro t w h; simp [idxmaxAbs] at h
  | cons q rest ih =>
    intro t w h p hp x hx
    match q with
    | (a, none) =>
      simp only [idxmaxAbs] at h
      rcases List.mem_cons.mp hp with heq | hmem
      · rw [heq] at hx; simp at hx
      · exact ih h p hmem x hx
    | (a, some y) =>
      simp only [idxmaxAbs] at h
      cases hr : idxmaxAbs rest with
      | none =>
        rw [hr] at h
        simp at h
        rcases List.mem_cons.mp hp with heq | hmem
        · rw [heq] at hx
          simp at hx
          rw [← hx, ← h.2]
        · have hnone := idxmaxAbs_none hr p hmem
          rw [hnone] at hx
          simp at hx
      | some tw =>
        obtain ⟨t2, w2⟩ := tw
        rw [hr] at h
        by_cases hc : |y| < |w2|
        · simp [hc] at h
          rcases List.mem_cons.mp hp with heq | hmem
          · rw [heq] at hx
            simp at hx
            rw [← hx, ← h.2]
            exact le_of_lt hc
          · rw [← h.2]
            exact ih hr p hmem x hx
        · simp [hc] at h
          rcases List.mem_cons.mp hp with heq | hmem
          · rw [heq] at hx
            simp at hx
            rw [← hx, ← h.2]
          · rw [← h.2]
            exact le_trans (ih hr p hmem x hx) (le_of_not_lt hc)

theorem zipWith_self_eq_map {α β : Type} (f : α → α → β) (l : List α) :
    List.zipWith f l l = l.map (fun a => f a a) := by
  induction l with
  | nil => rfl
  | cons a t ih => simp [ih]

/-- Under the hypotheses that make the routine succeed — a non-empty
retained list, all allocation lookups succeeding, and at least one
defined price change — the analysis returns the full record. -/
theorem analyze_eq_ok (stockList : List Ticker) (hist : Ticker → List ℚ)
    (quote : Ticker → Option ℚ) (alloc : List (Ticker × ℚ))
    (ws : List ℚ) (lc : Ticker × ℚ)
    (hne : retainedOf stockList hist ≠ [])
    (hws : (retainedOf stockList hist).mapM (lookupW alloc) = some ws)
    (hidx : idxmaxAbs (priceChangeOf (retainedOf stockList hist) hist quote) = some lc) :
    analyzeRiskExposure stockList hist quote alloc =
      AnalysisOutcome.ok
        { correlation_matrix := corrMatrixFn (retainedOf stockList hist) hist
          portfolio_risk := pstd (portfolioReturnsFn (retainedOf stockList hist) hist ws)
          largest_change_stock := lc.1
          largest_change_value := lc.2
          allocation_percentage := allocPctFn alloc (retainedOf stockList hist)
          previous_day_allocation_percentage := prevPctFn alloc (retainedOf stockList hist) } := by
  simp only [analyzeRiskExposure, hne, hidx, if_neg]
  have hws2 : List.mapM.loop (lookupW alloc) (retainedOf stockList hist) [] = some ws := hws
  simp [hws2, hidx, hne]

/-- C3: the allocation percentage of a successful analysis is the
weight sum of the retained symbols divided by the total weight of the
allocation table, times 100. -/
theorem C3_allocation_percentage (stockList : List Ticker) (hist : Ticker → List ℚ)
    (quote : Ticker → Option ℚ) (alloc : List (Ticker × ℚ))
    (hne : retainedOf stockList hist ≠ [])
    (hws : ∀ s ∈ retainedOf stockList hist, (lookupW alloc s).isSome)
    (hq : ∃ s v, (s, some v) ∈ priceChangeOf (retainedOf stockList hist) hist quote) :
    allocPctOf (analyzeRiskExposure stockList hist quote alloc) =
      some (specAllocationPct alloc (retainedOf stockList hist)) := by
  obtain ⟨s, v, hmem⟩ := hq
  obtain ⟨t, w, hidx⟩ := idxmaxAbs_isSome hmem
  rw [analyze_eq_ok stockList hist quote alloc _ (t, w) hne
    (mapM_lookup_eq alloc _ hws) hidx]
  simp only [allocPctOf]
  rfl

theorem C3_witness :
    (retainedOf ["A", "B"] wHist ≠ []) ∧
    allocPctOf (analyzeRiskExposure ["A", "B"] wHist wQuote wAlloc) =
      some (specAllocationPct wAlloc (retainedOf ["A", "B"] wHist)) :=
  ⟨by decide,
   C3_allocation_percentage ["A", "B"] wHist wQuote wAlloc (by decide) (by decide)
     ⟨"A", 3 - 2, by simp [priceChangeOf, retainedOf, prevCloseOf, histLenOf, wHist, wQuote]⟩⟩

/-- C2: the portfolio risk of a successful analysis over aligned series
is the standard deviation of the weighted daily return sums — each
symbol's daily percentage return times its weight, summed across the
retained symbols for each day. -/
theorem C2_portfolio_risk (stockList : List Ticker) (hist : Ticker → List ℚ)
    (quote : Ticker → Option ℚ) (alloc : List (Ticker × ℚ)) (m : ℕ)
    (hne : retainedOf stockList hist ≠ [])
    (hm : ∀ s ∈ retainedOf stockList hist, (hist s).length = m)
    (hws : ∀ s ∈ retainedOf stockList hist, (lookupW alloc s).isSome)
    (hq : ∃ s v, (s, some v) ∈ priceChangeOf (retainedOf stockList hist) hist quote) :
    riskOf (analyzeRiskExposure stockList hist quote alloc) =
      some (pstd (specWeightedSeries (retainedOf stockList hist) hist alloc)) := by
  obtain ⟨s, v, hmem⟩ := hq
  obtain ⟨t, w, hidx⟩ := idxmaxAbs_isSome hmem
  rw [analyze_eq_ok stockList hist quote alloc _ (t, w) hne
    (mapM_lookup_eq alloc _ hws) hidx]
  simp only [riskOf]
  have hseries : portfolioReturnsFn (retainedOf stockList hist) hist
      ((retainedOf stockList hist).map (fun s => weightOf alloc s)) =
      specWeightedSeries (retainedOf stockList hist) hist alloc := by
    rw [portfolioReturnsFn, codeReturnsRows_eq _ hist m hne hm,
      specWeightedSeries, histLenOf_eq _ hist m hne hm, List.map_map]
    apply List.map_congr_left
    intro u hu
    simp only [Function.comp_apply]
    rw [List.zipWith_map, zipWith_self_eq_map]
  rw [hseries]

theorem C2_witness :
    (∀ s ∈ retainedOf ["A", "B"] wHist, (wHist s).length = 2) ∧
    riskOf (analyzeRiskExposure ["A", "B"] wHist wQuote wAlloc) =
      some (pstd (specWeightedSeries (retainedOf ["A", "B"] wHist) wHist wAlloc)) :=
  ⟨by decide,
   C2_portfolio_risk ["A", "B"] wHist wQuote wAlloc 2 (by decide) (by decide) (by decide)
     ⟨"A", 3 - 2, by simp [priceChangeOf, retainedOf, prevCloseOf, histLenOf, wHist, wQuote]⟩⟩

theorem priceChangeOf_eq_spec (retained : List Ticker) (hist : Ticker → List ℚ)
    (quote : Ticker → Option ℚ) (m : ℕ) (hne : retained ≠ [])
    (hm : ∀ s ∈ retained, (hist s).length = m) :
    priceChangeOf retained hist quote =
      retained.map (fun s => (s, specChange hist quote s)) := by
  unfold priceChangeOf
  apply List.map_congr_left
  intro s hs
  have hpc : prevCloseOf retained hist s = (hist s).getLast? := by
    rw [prevCloseOf, histLenOf_eq retained hist m hne hm,
      List.getLast?_eq_getElem?, hm s hs]
  rw [hpc]
  rfl

/-- C6: when at least one retained symbol has both a latest quote and a
last close, the returned largest-change stock attains the maximal
absolute price change among the retained symbols, and the returned
value is that symbol's signed change. -/
theorem C6_largest_change (stockList : List Ticker) (hist : Ticker → List ℚ)
    (quote : Ticker → Option ℚ) (alloc : List (Ticker × ℚ)) (m : ℕ)
    (hne : retainedOf stockList hist ≠ [])
    (hm : ∀ s ∈ retainedOf stockList hist, (hist s).length = m)
    (hws : ∀ s ∈ retainedOf stockList hist, (lookupW alloc s).isSome)
    (hq : ∃ s v, (s, some v) ∈ priceChangeOf (retainedOf stockList hist) hist quote) :
    ∃ t w, largestOf (analyzeRiskExposure stockList hist quote alloc) = some (t, w) ∧
      t ∈ retainedOf stockList hist ∧
      specChange hist quote t = some w ∧
      ∀ u ∈ retainedOf stockList hist, ∀ x : ℚ,
        specChange hist quote u = some x → |x| ≤ |w| := by
  obtain ⟨s, v, hmem⟩ := hq
  obtain ⟨t, w, hidx⟩ := idxmaxAbs_isSome hmem
  have hspec := priceChangeOf_eq_spec (retainedOf stockList hist) hist quote m hne hm
  have hmem3 := idxmaxAbs_mem hidx
  rw [hspec] at hmem3
  obtain ⟨u, hu, hequ⟩ := List.mem_map.mp hmem3
  have h1 : u = t := congrArg Prod.fst hequ
  have h2 : specChange hist quote u = some w := congrArg Prod.snd hequ
  refine ⟨t, w, ?_, ?_, ?_, ?_⟩
  · rw [analyze_eq_ok stockList hist quote alloc _ (t, w) hne
      (mapM_lookup_eq alloc _ hws) hidx]
    rfl
  · rw [← h1]; exact hu
  · rw [← h1]; exact h2
  · intro u2 hu2 x hx
    have hmem2 : (u2, some x) ∈ priceChangeOf (retainedOf stockList hist) hist quote := by
      rw [hspec]
      have hmm : (u2, specChange hist quote u2) ∈
          (retainedOf stockList hist).map (fun s => (s, specChange hist quote s)) :=
        List.mem_map_of_mem (fun s => (s, specChange hist quote s)) hu2
      rw [hx] at hmm
      exact hmm
    exact idxmaxAbs_le hidx (u2, some x) hmem2 x rfl

theorem C6_witness :
    (retainedOf ["A", "B"] wHist ≠ []) ∧
    (∃ t w, largestOf (analyzeRiskExposure ["A", "B"] wHist wQuote wAlloc) = some (t, w) ∧
      t ∈ retainedOf ["A", "B"] wHist ∧
      specChange wHist wQuote t = some w ∧
      ∀ u ∈ retainedOf ["A", "B"] wHist, ∀ x : ℚ,
        specChange wHist wQuote u = some x → |x| ≤ |w|) :=
  ⟨by decide,
   C6_largest_change ["A", "B"] wHist wQuote wAlloc 2 (by decide) (by decide) (by decide)
     ⟨"A", 3 - 2, by simp [priceChangeOf, retainedOf, prevCloseOf, histLenOf, wHist, wQuote]⟩⟩

theorem find?_map_key {β : Type} : ∀ (l : List (Ticker × β)) (a : Ticker) (c : β),
    (l.map Prod.fst).Nodup → (a, c) ∈ l →
    l.find? (fun p => p.1 == a) = some (a, c) := by
  intro l
  induction l with
  | nil => intro a c _ hmem; simp at hmem
  | cons q rest ih =>
    intro a c hnd hmem
    obtain ⟨qa, qc⟩ := q
    simp only [List.map_cons, List.nodup_cons] at hnd
    rcases List.mem_cons.mp hmem with heq | hmem2
    · injection heq with h1 h2
      rw [← h1, ← h2]
      exact List.find?_cons_of_pos _ (by simp)
    · have hqa : qa ≠ a := by
        intro hcontra
        apply hnd.1
        rw [hcontra]
        exact List.mem_map_of_mem Prod.fst hmem2
      rw [List.find?_cons_of_neg _ (by simp [hqa])]
      exact ih a c hnd.2 hmem2

theorem pair_mem_zip_cols (retained : List Ticker) (hist : Ticker → List ℚ)
    (c : Ticker) (hc : c ∈ retained) :
    (c, (codeReturnsRows retained hist).map
        (fun r => r.getD (retained.indexOf c) 0)) ∈
      retained.zip ((List.range retained.length).map
        (fun j => (codeReturnsRows retained hist).map (fun r => r.getD j 0))) := by
  have hi : retained.indexOf c < retained.length := List.indexOf_lt_length.mpr hc
  have hiz : retained.indexOf c <
      (retained.zip ((List.range retained.length).map
        (fun j => (codeReturnsRows retained hist).map (fun r => r.getD j 0)))).length := by
    rw [List.length_zip]
    simp [hi]
  have hmem := List.getElem_mem hiz
  rw [List.getElem_zip, List.getElem_map, List.getElem_range,
    List.getElem_indexOf hi] at hmem
  exact hmem

theorem corrLookup_eq (retained : List Ticker) (hist : Ticker → List ℚ)
    (hnd : retained.Nodup) (a b : Ticker) (ha : a ∈ retained) (hb : b ∈ retained) :
    corrLookup (corrMatrixFn retained hist) a b =
      corrR ((codeReturnsRows retained hist).map
          (fun r => r.getD (retained.indexOf a) 0))
        ((codeReturnsRows retained hist).map
          (fun r => r.getD (retained.indexOf b) 0)) := by
  have hlc : ((List.range retained.length).map
      (fun j => (codeReturnsRows retained hist).map (fun r => r.getD j 0))).length =
      retained.length := by simp
  have hfstp : (retained.zip ((List.range retained.length).map
      (fun j => (codeReturnsRows retained hist).map (fun r => r.getD j 0)))).map
        Prod.fst = retained :=
    List.map_fst_zip _ _ (by rw [hlc])
  have hpa := pair_mem_zip_cols retained hist a ha
  have hpb := pair_mem_zip_cols retained hist b hb
  have hMdef : corrMatrixFn retained hist =
      (retained.zip ((List.range retained.length).map
        (fun j => (codeReturnsRows retained hist).map (fun r => r.getD j 0)))).map
        (fun p => (p.1, (retained.zip ((List.range retained.length).map
          (fun j => (codeReturnsRows retained hist).map (fun r => r.getD j 0)))).map
            (fun q => (q.1, corrR p.2 q.2)))) := by
    simp only [corrMatrixFn]
  have hMfst : (corrMatrixFn retained hist).map Prod.fst = retained := by
    rw [hMdef, List.map_map]
    exact hfstp
  have hMmem : (a, (retained.zip ((List.range retained.length).map
      (fun j => (codeReturnsRows retained hist).map (fun r => r.getD j 0)))).map
        (fun q => (q.1, corrR ((codeReturnsRows retained hist).map
          (fun r => r.getD (retained.indexOf a) 0)) q.2))) ∈
      corrMatrixFn retained hist := by
    rw [hMdef]
    exact List.mem_map_of_mem _ hpa
  have hfound := find?_map_key (corrMatrixFn retained hist) a _
    (by rw [hMfst]; exact hnd) hMmem
  have hinnerfst : ((retained.zip ((List.range retained.length).map
      (fun j => (codeReturnsRows retained hist).map (fun r => r.getD j 0)))).map
        (fun q => (q.1, corrR ((codeReturnsRows retained hist).map
          (fun r => r.getD (retained.indexOf a) 0)) q.2))).map Prod.fst = retained := by
    rw [List.map_map]
    exact hfstp
  have hinnermem : (b, corrR ((codeReturnsRows retained hist).map
      (fun r => r.getD (retained.indexOf a) 0))
      ((codeReturnsRows retained hist).map
        (fun r => r.getD (retained.indexOf b) 0))) ∈
      (retained.zip ((List.range retained.length).map
        (fun j => (codeReturnsRows retained hist).map (fun r => r.getD j 0)))).map
        (fun q => (q.1, corrR ((codeReturnsRows retained hist).map
          (fun r => r.getD (retained.indexOf a) 0)) q.2)) :=
    List.mem_map_of_mem _ hpb
  have hfound2 := find?_map_key _ b _ (by rw [hinnerfst]; exact hnd) hinnermem
  unfold corrLookup
  rw [hfound, Option.map_some', Option.getD_some, hfound2, Option.map_some',
    Option.getD_some]

theorem listCov_comm (x y : List ℚ) (h : x.length = y.length) :
    listCov x y = listCov y x := by
  unfold listCov
  rw [h]
  congr 1
  rw [List.zipWith_comm]
  have hf : (fun (b : ℚ) (a : ℚ) => (a - listMean x) * (b - listMean y)) =
      (fun (b : ℚ) (a : ℚ) => (b - listMean y) * (a - listMean x)) := by
    funext b a
    ring
  rw [hf]

theorem corrR_comm (x y : List ℚ) (h : x.length = y.length) :
    corrR x y = corrR y x := by
  unfold corrR
  rw [listCov_comm x y h, mul_comm]

theorem listCov_self_nonneg (x : List ℚ) : 0 ≤ listCov x x := by
  unfold listCov
  rw [zipWith_self_eq_map]
  cases x with
  | nil => simp
  | cons a t =>
    apply div_nonneg
    · apply List.sum_nonneg
      intro q hq
      obtain ⟨c, hc, rfl⟩ := List.mem_map.mp hq
      exact mul_self_nonneg _
    · have h1 : (1 : ℚ) ≤ ((a :: t).length : ℚ) := by
        have : 1 ≤ (a :: t).length := by simp
        exact_mod_cast this
      linarith

theorem listCov_self_pos (x : List ℚ) (h : NonconstantL x) : 0 < listCov x x := by
  obtain ⟨a, ha, b, hb, hab⟩ := h
  have hlen : 2 ≤ x.length := by
    rcases x with _ | ⟨c, _ | ⟨d, t⟩⟩
    · simp at ha
    · simp at ha hb
      rw [ha, hb] at hab
      exact absurd rfl hab
    · simp only [List.length_cons]
      omega
  obtain ⟨e, he, hne⟩ : ∃ e ∈ x, e ≠ listMean x := by
    by_contra hcon
    push_neg at hcon
    exact hab ((hcon a ha).trans (hcon b hb).symm)
  unfold listCov
  rw [zipWith_self_eq_map]
  apply div_pos
  · have hterm : (e - listMean x) * (e - listMean x) ∈
        x.map (fun c => (c - listMean x) * (c - listMean x)) :=
      List.mem_map_of_mem _ he
    have hpos : 0 < (e - listMean x) * (e - listMean x) :=
      mul_self_pos.mpr (sub_ne_zero.mpr hne)
    calc (0 : ℚ) < (e - listMean x) * (e - listMean x) := hpos
      _ ≤ _ := List.single_le_sum (fun q hq => by
          obtain ⟨c, hc, rfl⟩ := List.mem_map.mp hq
          exact mul_self_nonneg _) _ hterm
  · have h2 : (2 : ℚ) ≤ (x.length : ℚ) := by exact_mod_cast hlen
    linarith

theorem corrR_self (x : List ℚ) (hv : listCov x x ≠ 0) : corrR x x = 1 := by
  unfold corrR
  rw [Real.mul_self_sqrt (by exact_mod_cast listCov_self_nonneg x)]
  rw [div_self (by exact_mod_cast hv)]

theorem map_getD_range (l : List ℚ) :
    (List.range l.length).map (fun t => l.getD t 0) = l := by
  apply List.ext_getElem
  · simp
  · intro i h1 h2
    rw [List.getElem_map, List.getElem_range,
      List.getD_eq_getElem?_getD, List.getElem?_eq_getElem h2]
    rfl

/-- With aligned series, the `j`-th column of the returns table, where
`j` is a retained symbol's position, is exactly that symbol's
day-over-day percentage changes. -/
theorem col_eq_dayOverDay (retained : List Ticker) (hist : Ticker → List ℚ) (m : ℕ)
    (hne : retained ≠ []) (hm : ∀ s ∈ retained, (hist s).length = m)
    (a : Ticker) (ha : a ∈ retained) :
    (codeReturnsRows retained hist).map (fun r => r.getD (retained.indexOf a) 0) =
      dayOverDay (hist a) := by
  rw [codeReturnsRows_eq retained hist m hne hm, List.map_map]
  have hlen : (dayOverDay (hist a)).length = m - 1 := by
    rw [length_dayOverDay, hm a ha]
  conv_rhs => rw [← map_getD_range (dayOverDay (hist a)), hlen]
  apply List.map_congr_left
  intro t ht
  simp only [Function.comp_apply]
  have hidx : retained.indexOf a < retained.length := List.indexOf_lt_length.mpr ha
  have hidx2 : retained.indexOf a <
      (retained.map (fun s => (dayOverDay (hist s)).getD t 0)).length := by
    rw [List.length_map]
    exact hidx
  rw [List.getD_eq_getElem?_getD, List.getElem?_eq_getElem hidx2]
  rw [List.getElem_map]
  simp [List.getElem_indexOf hidx]

/-- C4 (amended): the correlation matrix of a successful analysis is
symmetric, and a diagonal entry equals 1 whenever that symbol's daily
returns are not constant.  (Non-constant closes alone do not suffice:
they can produce constant returns, whose sample variance is zero.) -/
theorem C4_correlation_symmetric_diag (stockList : List Ticker)
    (hist : Ticker → List ℚ) (quote : Ticker → Option ℚ)
    (alloc : List (Ticker × ℚ)) (m : ℕ) (a b : Ticker)
    (hne : retainedOf stockList hist ≠ [])
    (hm : ∀ s ∈ retainedOf stockList hist, (hist s).length = m)
    (hnd : (retainedOf stockList hist).Nodup)
    (ha : a ∈ retainedOf stockList hist) (hb : b ∈ retainedOf stockList hist)
    (hws : ∀ s ∈ retainedOf stockList hist, (lookupW alloc s).isSome)
    (hq : ∃ s v, (s, some v) ∈ priceChangeOf (retainedOf stockList hist) hist quote) :
    corrOf (analyzeRiskExposure stockList hist quote alloc) =
      some (corrMatrixFn (retainedOf stockList hist) hist) ∧
    corrLookup (corrMatrixFn (retainedOf stockList hist) hist) a b =
      corrLookup (corrMatrixFn (retainedOf stockList hist) hist) b a ∧
    (NonconstantL (dayOverDay (hist a)) →
      corrLookup (corrMatrixFn (retainedOf stockList hist) hist) a a = 1) := by
  refine ⟨?_, ?_, ?_⟩
  · obtain ⟨s, v, hmem⟩ := hq
    obtain ⟨t, w, hidx⟩ := idxmaxAbs_isSome hmem
    rw [analyze_eq_ok stockList hist quote alloc _ (t, w) hne
      (mapM_lookup_eq alloc _ hws) hidx]
    rfl
  · rw [corrLookup_eq _ hist hnd a b ha hb, corrLookup_eq _ hist hnd b a hb ha]
    apply corrR_comm
    simp
  · intro hnc
    rw [corrLookup_eq _ hist hnd a a ha ha,
      col_eq_dayOverDay _ hist m hne hm a ha]
    exact corrR_self _ (ne_of_gt (listCov_self_pos _ hnc))

theorem C4_witness :
    ("A" ∈ retainedOf ["A", "B"] wHist) ∧
    corrLookup (corrMatrixFn (retainedOf ["A", "B"] wHist) wHist) "A" "B" =
      corrLookup (corrMatrixFn (retainedOf ["A", "B"] wHist) wHist) "B" "A" :=
  ⟨by decide,
   (C4_correlation_symmetric_diag ["A", "B"] wHist wQuote wAlloc 2 "A" "B"
     (by decide) (by decide) (by decide) (by decide) (by decide) (by decide)
     ⟨"A", 3 - 2,
      by simp [priceChangeOf, retainedOf, prevCloseOf, histLenOf, wHist, wQuote]⟩).2.1⟩

/-- C4 counterexample: with the non-constant close series 1, 2, 4 the
day-over-day returns are the constant series 1, 1, the sample variance
is zero, and the diagonal correlation entry is 0/0 — pandas shows NaN —
which is not 1, refuting the claim as stated over non-constant closes. -/
theorem C4_counterexample :
    NonconstantL [(1 : ℚ), 2, 4] ∧
    corrOf (analyzeRiskExposure ["A"] ceHist ceQuote wAlloc) =
      some (corrMatrixFn (retainedOf ["A"] ceHist) ceHist) ∧
    corrLookup (corrMatrixFn (retainedOf ["A"] ceHist) ceHist) "A" "A" ≠ 1 := by
  refine ⟨⟨1, by simp, 4, by simp, by norm_num⟩, ?_, ?_⟩
  · have hmem : ("A", some ((2 : ℚ) - 4)) ∈
        priceChangeOf (retainedOf ["A"] ceHist) ceHist ceQuote := by
      simp [priceChangeOf, retainedOf, prevCloseOf, histLenOf, ceHist, ceQuote]
    obtain ⟨t, w, hidx⟩ := idxmaxAbs_isSome hmem
    rw [analyze_eq_ok ["A"] ceHist ceQuote wAlloc _ (t, w) (by decide)
      (mapM_lookup_eq wAlloc _ (by decide)) hidx]
    rfl
  · rw [corrLookup_eq _ ceHist (by decide) "A" "A" (by decide) (by decide),
      col_eq_dayOverDay _ ceHist 3 (by decide) (by decide) "A" (by decide)]
    have hday : dayOverDay (ceHist "A") = [1, 1] := by
      simp [dayOverDay, ceHist]
      norm_num
    rw [hday]
    have hcov : listCov [(1 : ℚ), 1] [(1 : ℚ), 1] = 0 := by
      simp [listCov, listMean]
    unfold corrR
    rw [hcov]
    norm_num

theorem C5_witness :
    (retainedOf ["A", "B"] wHist ≠ []) ∧
    codeReturnsRows (retainedOf ["A", "B"] wHist) wHist =
      specReturnsTable (retainedOf ["A", "B"] wHist) wHist :=
  ⟨by decide,
   (C5_returns_table_drops_first_row ["A", "B"] wHist 2 (by decide) (by decide)).1⟩

/-- C7: `add_texts` raises when the number of texts differs from the
number of embedding rows, or when a non-empty metadata list has the
wrong length, or (for the FAISS store) when embeddings are not float32;
a raise for a count mismatch leaves texts, embeddings, metadata and the
index unchanged. -/
theorem C7_add_texts_checks (bst : BaseState) (st : FAISSState)
    (texts : List String) (embs : Embs) (metadata : Option (List MetaD)) :
    (texts.length ≠ embs.rows.length →
      (baseAddTexts bst texts embs metadata).2.isSome ∧
      (baseAddTexts bst texts embs metadata).1 = bst ∧
      (faissAddTexts st texts embs metadata).2.isSome ∧
      (faissAddTexts st texts embs metadata).1 = st) ∧
    ((metadata.getD []) ≠ [] → (metadata.getD []).length ≠ texts.length →
      (baseAddTexts bst texts embs metadata).2.isSome ∧
      (baseAddTexts bst texts embs metadata).1 = bst ∧
      (faissAddTexts st texts embs metadata).2.isSome ∧
      (faissAddTexts st texts embs metadata).1 = st) ∧
    (embs.dtype ≠ DType.float32 →
      (faissAddTexts st texts embs metadata).2.isSome ∧
      (faissAddTexts st texts embs metadata).1 = st) := by
  have hbase : ∀ b : BaseState,
      (texts.length ≠ embs.rows.length ∨
        ((metadata.getD []) ≠ [] ∧ (metadata.getD []).length ≠ texts.length)) →
      (baseAddTexts b texts embs metadata).2.isSome ∧
      (baseAddTexts b texts embs metadata).1 = b := by
    intro b hcase
    unfold baseAddTexts
    by_cases hcount : texts.length = embs.rows.length
    · rcases hcase with hcase | hcase
      · exact absurd hcount hcase
      · rw [if_neg (by simp [hcount]), if_pos hcase]
        exact ⟨rfl, rfl⟩
    · rw [if_pos hcount]
      exact ⟨rfl, rfl⟩
  have hfaiss : (texts.length ≠ embs.rows.length ∨
      ((metadata.getD []) ≠ [] ∧ (metadata.getD []).length ≠ texts.length)) →
      (faissAddTexts st texts embs metadata).2.isSome ∧
      (faissAddTexts st texts embs metadata).1 = st := by
    intro hcase
    unfold faissAddTexts
    by_cases hdt : embs.dtype = DType.float32
    · rw [if_neg (by simp [hdt])]
      obtain ⟨h1, h2⟩ := hbase st.base hcase
      obtain ⟨e, he⟩ := Option.isSome_iff_exists.mp h1
      rw [show baseAddTexts st.base texts embs metadata = (st.base, some e) from by
        rw [Prod.ext_iff]
        exact ⟨h2, he⟩]
      exact ⟨rfl, rfl⟩
    · rw [if_pos (by simp [hdt])]
      exact ⟨rfl, rfl⟩
  refine ⟨?_, ?_, ?_⟩
  · intro hcount
    exact ⟨(hbase bst (Or.inl hcount)).1, (hbase bst (Or.inl hcount)).2,
      (hfaiss (Or.inl hcount)).1, (hfaiss (Or.inl hcount)).2⟩
  · intro hm1 hm2
    exact ⟨(hbase bst (Or.inr ⟨hm1, hm2⟩)).1, (hbase bst (Or.inr ⟨hm1, hm2⟩)).2,
      (hfaiss (Or.inr ⟨hm1, hm2⟩)).1, (hfaiss (Or.inr ⟨hm1, hm2⟩)).2⟩
  · intro hdt
    unfold faissAddTexts
    rw [if_pos (by simp [hdt])]
    exact ⟨rfl, rfl⟩

theorem C7_witness :
    ((["t"] : List String).length ≠ (([] : List (List ℚ)).length)) ∧
    (faissAddTexts wFaiss ["t"] ⟨DType.float32, []⟩ none).2.isSome ∧
    (faissAddTexts wFaiss ["t"] ⟨DType.float32, []⟩ none).1 = wFaiss :=
  ⟨by decide,
   ((C7_add_texts_checks wFaiss.base wFaiss ["t"] ⟨DType.float32, []⟩ none).1
     (by decide)).2.2⟩

theorem filterMap_cons_of_some {α β : Type} {f : α → Option β} {a : α} {b : β}
    {l : List α} (h : f a = some b) :
    List.filterMap f (a :: l) = b :: List.filterMap f l := by
  simp [List.filterMap_cons, h]

theorem filterMap_cast_map (st : FAISSState) (l : List ℕ) :
    (l.map (fun i => Int.ofNat i)).filterMap
      (fun i => if i = -1 then none else some (entryAt st i.toNat)) =
      l.map (entryAt st) := by
  induction l with
  | nil => rfl
  | cons a t ih =>
    have hcond : ¬(Int.ofNat a = -1) := by
      show ¬((a : ℤ) = -1)
      omega
    rw [List.map_cons, List.map_cons,
      filterMap_cons_of_some (by rw [if_neg hcond]), ih]
    rfl

theorem faissRetrieve_ok (st : FAISSState) (q : QVec) (k : ℕ)
    (hne : st.indexVecs ≠ []) (hdt : q.dtype = DType.float32) :
    faissRetrieve st q k =
      Except.ok ((selectedIdx st q.vec k).map (entryAt st)) := by
  unfold faissRetrieve
  rw [if_neg (by simp [hne]), if_neg (by simp [hdt])]
  congr 1
  unfold searchIdx
  rw [List.filterMap_append]
  have h1 : (List.replicate (k - st.indexVecs.length) (-1 : ℤ)).filterMap
      (fun i => if i = -1 then none else some (entryAt st i.toNat)) = [] := by
    induction (k - st.indexVecs.length) with
    | zero => rfl
    | succ n ih => simp [List.replicate_succ, ih]
  rw [h1, List.append_nil, filterMap_cast_map]

/-- C8 (amended): querying an empty index is an explicit error for
every query; for a float32 query on a non-empty index, retrieve returns
the entries of the top-K stored indices by squared L2 distance — every
returned index is at least as close to the query as every stored index
that is not returned.  (A non-float32 query on a non-empty index raises
instead of returning entries, which is what forces the amendment.) -/
theorem C8_retrieve_empty_error_topk (st : FAISSState) (q : QVec) (k : ℕ) :
    (st.indexVecs = [] →
      faissRetrieve st q k =
        Except.error "The FAISS index is empty. Add some texts before querying.") ∧
    (st.indexVecs ≠ [] → q.dtype = DType.float32 →
      faissRetrieve st q k =
        Except.ok ((selectedIdx st q.vec k).map (entryAt st)) ∧
      ∀ i ∈ selectedIdx st q.vec k, ∀ j < st.indexVecs.length,
        j ∉ selectedIdx st q.vec k → distTo st q.vec i ≤ distTo st q.vec j) := by
  constructor
  · intro hempty
    unfold faissRetrieve
    rw [if_pos (by simp [hempty])]
  · intro hne hdt
    refine ⟨faissRetrieve_ok st q k hne hdt, ?_⟩
    intro i hi j hj hjn
    have horder : List.Pairwise (distLe (distTo st q.vec)) (sortedOrder st q.vec) :=
      List.sorted_insertionSort (distLe (distTo st q.vec))
        (List.range st.indexVecs.length)
    have hperm := List.perm_insertionSort (distLe (distTo st q.vec))
      (List.range st.indexVecs.length)
    have hjorder : j ∈ sortedOrder st q.vec :=
      (hperm.mem_iff).mpr (List.mem_range.mpr hj)
    have hsplit := List.take_append_drop k (sortedOrder st q.vec)
    have hjdrop : j ∈ (sortedOrder st q.vec).drop k := by
      rcases List.mem_append.mp (by rw [hsplit]; exact hjorder) with h | h
      · exact absurd h hjn
      · exact h
    rw [← hsplit] at horder
    have hrel := (List.pairwise_append.mp horder).2.2 i hi j hjdrop
    rcases hrel with h | ⟨h, _⟩
    · exact le_of_lt h
    · exact le_of_eq h

theorem C8_witness :
    (wFaiss.indexVecs ≠ []) ∧
    faissRetrieve wFaiss ⟨DType.float32, [1]⟩ 5 =
      Except.ok ((selectedIdx wFaiss [1] 5).map (entryAt wFaiss)) :=
  ⟨by decide,
   ((C8_retrieve_empty_error_topk wFaiss ⟨DType.float32, [1]⟩ 5).2
     (by decide) rfl).1⟩

/-- C8 counterexample: a float64 query against a non-empty index does
not return the top-K entries — it raises the dtype error — so the
claim's unrestricted quantification over query embeddings fails. -/
theorem C8_counterexample :
    wFaiss.indexVecs ≠ [] ∧
    faissRetrieve wFaiss ⟨DType.float64, [1]⟩ 5 =
      Except.error "Query embedding must be of dtype np.float32." :=
  ⟨by decide, rfl⟩

/-- C10: for a float32 query on a non-empty index the result of
retrieve holds at most `top_k` entries, and when `top_k` exceeds the
number of stored vectors it holds exactly the stored entries, reordered
by distance — the `-1` padding indices are filtered out. -/
theorem C10_topk_bounds (st : FAISSState) (q : QVec) (k : ℕ)
    (hne : st.indexVecs ≠ []) (hdt : q.dtype = DType.float32) :
    faissRetrieve st q k = Except.ok ((selectedIdx st q.vec k).map (entryAt st)) ∧
    ((selectedIdx st q.vec k).map (entryAt st)).length ≤ k ∧
    (st.indexVecs.length < k →
      ((selectedIdx st q.vec k).map (entryAt st)).Perm (allEntries st)) := by
  refine ⟨faissRetrieve_ok st q k hne hdt, ?_, ?_⟩
  · rw [List.length_map, selectedIdx]
    exact List.length_take_le k _
  · intro hk
    have hperm := List.perm_insertionSort (distLe (distTo st q.vec))
      (List.range st.indexVecs.length)
    have hlen : (sortedOrder st q.vec).length = st.indexVecs.length := by
      rw [sortedOrder, hperm.length_eq, List.length_range]
    rw [selectedIdx, List.take_of_length_le (by rw [hlen]; omega), allEntries]
    exact hperm.map (entryAt st)

theorem C10_witness :
    (wFaiss.indexVecs ≠ []) ∧
    ((selectedIdx wFaiss [1] 5).map (entryAt wFaiss)).length ≤ 5 :=
  ⟨by decide,
   (C10_topk_bounds wFaiss ⟨DType.float32, [1]⟩ 5 (by decide) rfl).2.1⟩

/-- C9: batch scraping returns one slot per input URL; slot `i` depends
only on URL `i` (so one failure never removes or alters other entries);
and a slot is `None` exactly when its URL fails to fetch, fails to
parse/extract, or has an unsupported extension. -/
theorem C9_scrape_filings_independent (env : ScrapeEnv) (urls : List String) :
    (scrape_filings env urls).length = urls.length ∧
    (∀ i, i < urls.length →
      (scrape_filings env urls).getD i none = scrape_filing env (urls.getD i "")) ∧
    (∀ url, scrape_filing env url = none ↔
      (env.fetch url = none ∨
       (isHtmlUrl url = true ∧
         ∃ c, env.fetch url = some c ∧ env.parseHtml c = none) ∨
       (isHtmlUrl url = false ∧ isPdfUrl url = true ∧
         ∃ c, env.fetch url = some c ∧ env.extractPdf c = none) ∨
       (isHtmlUrl url = false ∧ isPdfUrl url = false))) := by
  refine ⟨by simp [scrape_filings], ?_, ?_⟩
  · intro i hi
    rw [scrape_filings, List.getD_eq_getElem?_getD, List.getElem?_map,
      List.getElem?_eq_getElem hi, List.getD_eq_getElem?_getD,
      List.getElem?_eq_getElem hi]
    rfl
  · intro url
    cases hf : env.fetch url with
    | none => simp [scrape_filing, hf]
    | some c =>
      by_cases hh : isHtmlUrl url = true
      · cases hp : env.parseHtml c with
        | none => simp [scrape_filing, hf, hh, hp]
        | some soup => simp [scrape_filing, hf, hh, hp]
      · by_cases hpdf : isPdfUrl url = true
        · cases he : env.extractPdf c with
          | none => simp [scrape_filing, hf, hh, hpdf, he]
          | some txt => simp [scrape_filing, hf, hh, hpdf, he]
        · simp [scrape_filing, hf, hh, hpdf]

theorem C9_witness :
    ((0 : ℕ) < (["a.html", "bad.pdf"] : List String).length) ∧
    (scrape_filings wEnv ["a.html", "bad.pdf"]).getD 0 none =
      scrape_filing wEnv ((["a.html", "bad.pdf"] : List String).getD 0 "") :=
  ⟨by decide,
   (C9_scrape_filings_independent wEnv ["a.html", "bad.pdf"]).2.1 0 (by decide)⟩
